import Mathlib

/-!
# Drive source of moggio: catalog build and track addressing

A shallow embedding of `protocol/drive/drive.go` (package `drive`): the
catalog build `Drive.Refresh`, the lookups `Drive.Info`, `Drive.List`,
`Drive.GetSong`, and the TrackID scheme `"<index>-<fileID>"`.

Conventions of the embedding

* A Go `string` is a Lean `String`; a Go `error` is its message.
* A Go `int` is 64 bits wide.  Values are integers, and the one addition the
  code performs on a caller-controlled `int` (`num+1` in `GetSong`) wraps
  explicitly (`wrapInt`).
* A Go map is an association list with unique keys (`mget`, `mset`).
* A `*codec.SongInfo` is an address into a heap of `SongInfo` cells.
* The remote account and the decoders are a `World` of functions.
* The paging loop of `Refresh` is bounded by a fuel argument; `none` means the
  loop is still running when the fuel is used up.
-/

namespace Moggio

/-! ## Strings, errors, decimal numerals -/

/-- A Go `error`, identified with the message it carries. -/
abbrev Error := String

/-- Largest value of a Go `int` (64-bit). -/
def maxInt : Nat := 2 ^ 63 - 1

/-- Two's-complement wrap-around of an integer into the range of a Go `int`. -/
def wrapInt (x : Int) : Int := (x + 2 ^ 63) % 2 ^ 64 - 2 ^ 63

/-- The decimal digit character of `d` (for `d < 10`). -/
def digitChar : Nat → Char
  | 0 => '0'
  | 1 => '1'
  | 2 => '2'
  | 3 => '3'
  | 4 => '4'
  | 5 => '5'
  | 6 => '6'
  | 7 => '7'
  | 8 => '8'
  | _ => '9'

/-- Worker of `itoa`: digits of `n` are pushed in front of `acc`, least significant first. -/
def itoaAux : Nat → Nat → List Char → List Char
  | 0, _, acc => acc
  | fuel + 1, n, acc =>
    if n < 10 then digitChar n :: acc
    else itoaAux fuel (n / 10) (digitChar (n % 10) :: acc)

/-- The decimal numeral of a non-negative `int`, as `fmt.Sprintf("%v", i)` prints it. -/
def itoa (n : Nat) : List Char := itoaAux (n + 1) n []

/-- The TrackID built in `Refresh`: `fmt.Sprintf("%v-%v", i, f.Id)`. -/
def makeID (i : Nat) (fileID : String) : String := ⟨itoa i ++ '-' :: fileID.data⟩

/-- Value of a decimal digit character, `none` for any other character. -/
def digitVal (c : Char) : Option Nat :=
  if '0'.toNat ≤ c.toNat ∧ c.toNat ≤ '9'.toNat then some (c.toNat - '0'.toNat) else none

/-- Horner evaluation of a digit string from the left, starting from `a`. -/
def parseDigits : Nat → List Char → Option Nat
  | a, [] => some a
  | a, c :: cs =>
    match digitVal c with
    | some v => parseDigits (10 * a + v) cs
    | none => none

/-- Split at the first `'-'`: the text before it and the text after it. -/
def splitDash : List Char → Option (List Char × List Char)
  | [] => none
  | c :: cs =>
    if c = '-' then some ([], cs)
    else
      match splitDash cs with
      | some (a, b) => some (c :: a, b)
      | none => none

/-- Modelled from the spec: `protocol.ParseID`, which lives in package `protocol`
and is only called here.  A TrackID is `"<index>-<fileID>"`; parsing fails when no
separator is found or when the text before the first separator is not a
non-negative integer.  The index is returned as a Go `int` (`GetSong` adds to it and
compares it with `len(ss)`), so a numeral above `maxInt` is not an index. -/
def ParseID (id : String) : Except Error (String × Nat) :=
  match splitDash id.data with
  | none => .error "bad format"
  | some (a, b) =>
    if a = [] then .error "bad format"
    else
      match parseDigits 0 a with
      | none => .error "bad format"
      | some n => if n ≤ maxInt then .ok (⟨b⟩, n) else .error "bad format"


/-! ## Go maps as association lists -/

/-- Map read `m[k]`: `none` when the key is absent. -/
def mget {V : Type} : List (String × V) → String → Option V
  | [], _ => none
  | (k', v) :: m, k => if k' = k then some v else mget m k

/-- Removal of the bindings of `k`. -/
def mdel {V : Type} : List (String × V) → String → List (String × V)
  | [], _ => []
  | (k', v) :: m, k => if k' = k then mdel m k else (k', v) :: mdel m k

/-- Map write `m[k] = v`: any binding of `k` is replaced. -/
def mset {V : Type} (m : List (String × V)) (k : String) (v : V) : List (String × V) :=
  (k, v) :: mdel m k

/-- The keys of a map. -/
def mkeys {V : Type} (m : List (String × V)) : List String := m.map Prod.fst

/-! ## Data model -/

/-- The fields of `drive.File` requested by `Refresh`:
`items(id,fileExtension,fileSize,title)`. -/
structure File where
  Id : String
  FileExtension : String
  FileSize : Int
  Title : String
  deriving DecidableEq

/-- Modelled from the spec: `codec.SongInfo`, the per-track metadata record, declared in
package `codec`.  Only its identity as a value matters here. -/
structure SongInfo where
  Artist : String
  Title : String
  Album : String
  deriving DecidableEq

/-- The zero value of `codec.SongInfo`, the initial content of `var info codec.SongInfo`. -/
def SongInfo.zero : SongInfo := ⟨"", "", ""⟩

/-- A `codec.Song`, as far as this package uses it: the two results of `v.Info()`.
`name` tells decoded tracks apart. -/
structure Song where
  name : String
  Info : SongInfo × Option Error
  deriving DecidableEq

/-- A `*codec.SongInfo`: the address of a heap cell. -/
abbrev Ptr := Nat

/-- The heap of `codec.SongInfo` variables whose address has been published. -/
abbrev Heap := List SongInfo

/-- Type `protocol.SongList`, a `map[string]*codec.SongInfo`. -/
abbrev SongList := List (String × Ptr)

/-- One page of `service.Files.List()...Do()`. -/
structure FileList where
  Items : List File
  NextPageToken : String
  deriving DecidableEq

/-- The collaborators of the package.
* `getService`: the error of `d.getService()`, `none` for success;
* `FilesList tok`: the result of `service.Files.List().PageToken(tok)...Do()`;
* `ByExtension ext id`: the track list and the error of
  `codec.ByExtension(ext, d.reader(id))`. -/
structure World where
  getService : Option Error
  FilesList : String → Except Error FileList
  ByExtension : String → String → List Song × Option Error

/-- The receiver `*Drive`: the two catalog tables (the token does not change). -/
structure Drive where
  Files : List (String × File)
  Songs : SongList
  deriving DecidableEq

/-- The instance built by `New`: both maps are nil. -/
def New : Drive := ⟨[], []⟩

/-! ## Refresh -/

/-- The variables of `Refresh` that live across loop iterations: the two maps under
construction, the variable `info` declared before the loops, and the `err` declared by
`fl, err := ...` inside the paging loop (the one the loop body assigns to). -/
structure Build where
  files : List (String × File)
  songs : SongList
  info : SongInfo
  err : Option Error
  deriving DecidableEq

/-- Body of `for i, v := range ss` (lines 153-160); `p` is `&info`. -/
def trackBody (p : Ptr) (fileID : String) (i : Nat) (v : Song) (st : Build) : Build :=
  let id := makeID i fileID
  let st1 : Build := { st with info := v.Info.1, err := v.Info.2 }
  match v.Info.2 with
  | some _ => st1
  | none => { st1 with songs := mset st1.songs id p }

/-- The loop `for i, v := range ss`, from index `i` on. -/
def rangeTracks (p : Ptr) (fileID : String) : Nat → List Song → Build → Build
  | _, [], st => st
  | i, v :: vs, st => rangeTracks p fileID (i + 1) vs (trackBody p fileID i v st)

/-- Body of `for _, f := range fl.Items` (lines 147-161). -/
def fileBody (w : World) (p : Ptr) (st : Build) (f : File) : Build :=
  let r := w.ByExtension f.FileExtension f.Id
  let st1 : Build := { st with err := r.2 }
  if r.2 ≠ none ∨ r.1.length = 0 then st1
  else rangeTracks p f.Id 0 r.1 { st1 with files := mset st1.files f.Id f }

/-- The paging loop `for { ... }` (lines 136-165), entered with page token `nextPage`.
The result is `none` when the fuel runs out, the listing error of line 144, or the
variables at the `break` of line 163. -/
def pageLoop (w : World) (p : Ptr) : Nat → String → Build → Option (Except Error Build)
  | 0, _, _ => none
  | fuel + 1, nextPage, st =>
    match w.FilesList nextPage with
    | .error e => some (.error e)
    | .ok fl =>
      let st1 := fl.Items.foldl (fileBody w p) { st with err := none }
      if fl.NextPageToken = "" then some (.ok st1)
      else pageLoop w p fuel fl.NextPageToken st1

/-- What a call leaves behind: the two returned values (a nil map is `none`), the
receiver and the heap. -/
structure Outcome where
  songs : Option SongList
  err : Option Error
  d : Drive
  heap : Heap
  deriving DecidableEq

/-- Method `(*Drive).Refresh` (lines 126-169).  `err` is the variable declared at line 127,
the one returned at line 168; the loops assign to the `err` of `Build`, declared at line
137.  The variable `info` is given the first free address `p`; its final content is stored
there when the maps holding `&info` are published.  On the error returns nothing refers to
it and the heap is as before. -/
def Drive.Refresh (w : World) (fuel : Nat) (d : Drive) (h : Heap) : Option Outcome :=
  let err := w.getService
  match err with
  | some e => some ⟨none, some e, d, h⟩
  | none =>
    let p : Ptr := h.length
    match pageLoop w p fuel "" ⟨[], [], SongInfo.zero, none⟩ with
    | none => none
    | some (.error e) => some ⟨none, some e, d, h⟩
    | some (.ok st) =>
      some ⟨some st.songs, err, { Files := st.files, Songs := st.songs }, h ++ [st.info]⟩

/-! ## Info, List, GetSong -/

/-- Method `(*Drive).Info` (lines 69-75): the pointer stored under `id`. -/
def Drive.Info (d : Drive) (id : String) : Except Error Ptr :=
  match mget d.Songs id with
  | none => .error ("could not find " ++ id)
  | some s => .ok s

/-- The `codec.SongInfo` a caller reads through the pointer `Info` returns. -/
def Drive.InfoValue (d : Drive) (h : Heap) (id : String) : Option SongInfo :=
  match d.Info id with
  | .error _ => none
  | .ok p => h[p]?

/-- Method `(*Drive).List` (lines 77-82). -/
def Drive.List (w : World) (fuel : Nat) (d : Drive) (h : Heap) : Option Outcome :=
  if d.Songs.length = 0 then d.Refresh w fuel h
  else some ⟨some d.Songs, none, d, h⟩

/-- The ways `GetSong` ends, one per return statement, and the run-time panic of an
index out of range at `ss[num]`. -/
inductive GetSongResult where
  | parseError (e : Error)
  | missingFile (e : Error)
  | decodeError (e : Error)
  | missingTrack (e : Error)
  | song (s : Song)
  | panicIndex
  deriving DecidableEq

/-- Method `(*Drive).GetSong` (lines 84-101).  The test of line 97 compares `len(ss)` with
`num+1` computed in `int`. -/
def Drive.GetSong (w : World) (d : Drive) (id : String) : GetSongResult :=
  match ParseID id with
  | .error e => .parseError e
  | .ok (path, num) =>
    match mget d.Files path with
    | none => .missingFile ("missing " ++ path)
    | some f =>
      let r := w.ByExtension f.FileExtension path
      match r.2 with
      | some e => .decodeError e
      | none =>
        if (r.1.length : Int) < wrapInt ((num : Int) + 1) then .missingTrack ("missing " ++ id)
        else
          match r.1[num]? with
          | some s => .song s
          | none => .panicIndex

/-- The error value a `GetSong` result carries, if any. -/
def GetSongResult.error? : GetSongResult → Option Error
  | .parseError e => some e
  | .missingFile e => some e
  | .decodeError e => some e
  | .missingTrack e => some e
  | .song _ => none
  | .panicIndex => none

/-! ## The remote listing and the tracks it contributes -/

/-- The files the paging loop visits from page token `tok` on, in order, or the error of
the first failing page request; `none` when the listing does not end within the
fuel. -/
def listing (w : World) : Nat → String → Option (Except Error (List File))
  | 0, _ => none
  | fuel + 1, tok =>
    match w.FilesList tok with
    | .error e => some (.error e)
    | .ok fl =>
      if fl.NextPageToken = "" then some (.ok fl.Items)
      else
        match listing w fuel fl.NextPageToken with
        | none => none
        | some (.error e) => some (.error e)
        | some (.ok rest) => some (.ok (fl.Items ++ rest))

/-- A listed file is recorded when its decode reports no error and at least one track. -/
def decodes (w : World) (f : File) : Prop :=
  (w.ByExtension f.FileExtension f.Id).2 = none ∧
    (w.ByExtension f.FileExtension f.Id).1.length ≠ 0

instance (w : World) (f : File) : Decidable (decodes w f) := by
  unfold decodes; infer_instance

/-- The TrackIDs of the tracks `ss` (numbered from `i`) whose `Info()` succeeds. -/
def trackIDs (fileID : String) : Nat → List Song → List String
  | _, [] => []
  | i, v :: vs =>
    if v.Info.2 = none then makeID i fileID :: trackIDs fileID (i + 1) vs
    else trackIDs fileID (i + 1) vs

/-- The TrackIDs one listed file contributes. -/
def fileIDs (w : World) (f : File) : List String :=
  if decodes w f then trackIDs f.Id 0 (w.ByExtension f.FileExtension f.Id).1 else []

/-- Number of tracks the listed files decode to (the `K` of the catalog size). -/
def decodedTracks (w : World) (fs : List File) : Nat :=
  (fs.map (fun f => if decodes w f then (w.ByExtension f.FileExtension f.Id).1.length else 0)).sum

/-- A track mapping with every pointer replaced by the value it points to. -/
abbrev InfoView := List (String × Option SongInfo)

/-- The map of TrackID to metadata value a catalog presents through its pointers. -/
def Drive.view (d : Drive) (h : Heap) : InfoView :=
  d.Songs.map (fun e => (e.1, h[e.2]?))

/-- The TrackIDs a listing contributes, in the order `Refresh` writes them. -/
def catalogIDs (w : World) (fs : List File) : List String := fs.flatMap (fileIDs w)

/-- The content of the variable `info` after the loop over the tracks `ss`: the first
result of the last `v.Info()` call, whether or not that call reported an error. -/
def infoAfterTracks (ss : List Song) (i0 : SongInfo) : SongInfo :=
  ss.foldl (fun _ v => v.Info.1) i0

/-- The content of the variable `info` after the listed files `fs`. -/
def infoAfter (w : World) (fs : List File) (i0 : SongInfo) : SongInfo :=
  fs.foldl
    (fun i f => if decodes w f then infoAfterTracks (w.ByExtension f.FileExtension f.Id).1 i else i)
    i0

/-- The file table after recording the listed files `fs` that decode. -/
def filesAfter (w : World) (fs : List File) (m : List (String × File)) : List (String × File) :=
  (fs.filter (fun f => decide (decodes w f))).foldl (fun m f => mset m f.Id f) m

/-- The track mapping after writing `p` under the TrackIDs `ids`. -/
def songsAfter (p : Ptr) (ids : List String) (m : SongList) : SongList :=
  ids.foldl (fun m k => mset m k p) m

/-! ## Example accounts -/

/-- A decodable file. -/
def fileA : File := ⟨"a", "mp3", 10, "A"⟩

/-- A corrupt file. -/
def fileB : File := ⟨"b", "mp3", 10, "B"⟩

/-- Metadata of the first track of `fileA`. -/
def infoX : SongInfo := ⟨"x", "x", "x"⟩

/-- Metadata of the second track of `fileA`. -/
def infoY : SongInfo := ⟨"y", "y", "y"⟩

/-- An account listing `fileA` (two tracks) and `fileB` (decode error) on one page. -/
def worldAB : World where
  getService := none
  FilesList := fun tok => if tok = "" then .ok ⟨[fileA, fileB], ""⟩ else .error "bad token"
  ByExtension := fun _ id =>
    if id = "a" then ([⟨"t0", (infoX, none)⟩, ⟨"t1", (infoY, none)⟩], none)
    else ([], some "corrupt")

/-- An account listing `fileA` only; the metadata of its second track cannot be
extracted. -/
def worldPartial : World where
  getService := none
  FilesList := fun tok => if tok = "" then .ok ⟨[fileA], ""⟩ else .error "bad token"
  ByExtension := fun _ id =>
    if id = "a" then ([⟨"t0", (infoX, none)⟩, ⟨"t1", (SongInfo.zero, some "no tags")⟩], none)
    else ([], some "corrupt")

/-- An account without files. -/
def worldEmpty : World where
  getService := none
  FilesList := fun tok => if tok = "" then .ok ⟨[], ""⟩ else .error "bad token"
  ByExtension := fun _ _ => ([], none)

/-- An account whose second page request fails, after `fileA` was probed. -/
def worldBroken : World where
  getService := none
  FilesList := fun tok =>
    if tok = "" then .ok ⟨[fileA], "page2"⟩ else .error "transport error"
  ByExtension := worldAB.ByExtension

/-- A second listing entry with the identifier of `fileA` and another extension. -/
def fileA2 : File := ⟨"a", "flac", 10, "A"⟩

/-- An account whose listing names the identifier `"a"` twice: the entry with extension
`mp3` decodes to two tracks, the entry with extension `flac` to one. -/
def worldDup : World where
  getService := none
  FilesList := fun tok => if tok = "" then .ok ⟨[fileA, fileA2], ""⟩ else .error "bad token"
  ByExtension := fun ext _ =>
    if ext = "mp3" then ([⟨"t0", (infoX, none)⟩, ⟨"t1", (infoY, none)⟩], none)
    else ([⟨"u0", (infoX, none)⟩], none)

/-- A catalog holding `fileA` and its two tracks, as a `Refresh` of `worldAB` on a fresh
instance leaves it. -/
def driveA : Drive := ⟨[("a", fileA)], [("1-a", 0), ("0-a", 0)]⟩

/-! ## Lemmas on numerals -/

theorem digitVal_digitChar (d : Nat) (h : d < 10) : digitVal (digitChar d) = some d := by
  interval_cases d <;> rfl

theorem digitChar_ne_dash (d : Nat) : digitChar d ≠ '-' := by
  unfold digitChar
  split <;> decide

theorem itoaAux_append (fuel n : Nat) (acc : List Char) :
    itoaAux fuel n acc = itoaAux fuel n [] ++ acc := by
  induction fuel generalizing n acc with
  | zero => simp [itoaAux]
  | succ k ih =>
    simp only [itoaAux]
    split
    · simp
    · rw [ih (n / 10) (digitChar (n % 10) :: acc), ih (n / 10) [digitChar (n % 10)]]
      simp

theorem parseDigits_append (a : Nat) (l r : List Char) :
    parseDigits a (l ++ r) = (parseDigits a l).bind (fun a' => parseDigits a' r) := by
  induction l generalizing a with
  | nil => simp [parseDigits]
  | cons c cs ih =>
    simp only [List.cons_append, parseDigits]
    cases digitVal c with
    | none => simp
    | some v => simpa using ih (10 * a + v)

theorem parseDigits_itoaAux (fuel n : Nat) (h : n < fuel) :
    parseDigits 0 (itoaAux fuel n []) = some n := by
  induction fuel generalizing n with
  | zero => omega
  | succ k ih =>
    simp only [itoaAux]
    split
    · rename_i hlt
      simp [parseDigits, digitVal_digitChar n hlt]
    · rename_i hge
      rw [itoaAux_append, parseDigits_append, ih (n / 10) (by omega)]
      simp only [Option.some_bind, parseDigits, digitVal_digitChar (n % 10) (Nat.mod_lt _ (by omega))]
      congr 1
      omega

theorem parseDigits_itoa (n : Nat) : parseDigits 0 (itoa n) = some n :=
  parseDigits_itoaAux (n + 1) n (Nat.lt_succ_self n)

theorem itoaAux_no_dash (fuel n : Nat) (acc : List Char) (hacc : '-' ∉ acc) :
    '-' ∉ itoaAux fuel n acc := by
  induction fuel generalizing n acc with
  | zero => simpa [itoaAux] using hacc
  | succ k ih =>
    simp only [itoaAux]
    split
    · simp only [List.mem_cons, not_or]
      exact ⟨fun h => digitChar_ne_dash n h.symm, hacc⟩
    · apply ih
      simp only [List.mem_cons, not_or]
      exact ⟨fun h => digitChar_ne_dash _ h.symm, hacc⟩

theorem itoa_no_dash (n : Nat) : '-' ∉ itoa n :=
  itoaAux_no_dash _ _ _ (by simp)

theorem itoaAux_ne_nil (fuel n : Nat) (acc : List Char) (h : 0 < fuel) :
    itoaAux fuel n acc ≠ [] := by
  induction fuel generalizing n acc with
  | zero => omega
  | succ k ih =>
    simp only [itoaAux]
    split
    · simp
    · rw [itoaAux_append]
      simp

theorem itoa_ne_nil (n : Nat) : itoa n ≠ [] :=
  itoaAux_ne_nil _ _ _ (Nat.succ_pos n)

theorem splitDash_append (a b : List Char) (h : '-' ∉ a) :
    splitDash (a ++ '-' :: b) = some (a, b) := by
  induction a with
  | nil => simp [splitDash]
  | cons c cs ih =>
    simp only [List.mem_cons, not_or] at h
    have hc : c ≠ '-' := fun e => h.1 e.symm
    simp [splitDash, hc, ih h.2]

/-- Splitting recovers the text: the input is the prefix, the separator, the suffix. -/
theorem splitDash_eq (l a b : List Char) (h : splitDash l = some (a, b)) :
    l = a ++ '-' :: b := by
  induction l generalizing a b with
  | nil => simp [splitDash] at h
  | cons c cs ih =>
    simp only [splitDash] at h
    split at h
    · rename_i hc
      simp only [Option.some.injEq, Prod.mk.injEq] at h
      obtain ⟨rfl, rfl⟩ := h
      simp [hc]
    · split at h
      · rename_i a' b' heq
        simp only [Option.some.injEq, Prod.mk.injEq] at h
        obtain ⟨rfl, rfl⟩ := h
        simpa using ih a' b' heq
      · simp at h

theorem ParseID_makeID (i : Nat) (f : String) (hi : i ≤ maxInt) :
    ParseID (makeID i f) = .ok (f, i) := by
  simp only [ParseID, makeID, splitDash_append _ _ (itoa_no_dash i), itoa_ne_nil i,
    if_false, parseDigits_itoa, hi, if_true]


/-! ## Lemmas on maps -/

theorem mget_mset_self {V : Type} (m : List (String × V)) (k : String) (v : V) :
    mget (mset m k v) k = some v := by
  simp [mset, mget]

theorem mget_mdel_ne {V : Type} (m : List (String × V)) (k k' : String) (h : k' ≠ k) :
    mget (mdel m k) k' = mget m k' := by
  induction m with
  | nil => rfl
  | cons e m ih =>
    obtain ⟨a, b⟩ := e
    by_cases hak : a = k
    · subst hak
      have : ¬ a = k' := fun e => h e.symm
      simp [mdel, mget, this, ih]
    · by_cases hak' : a = k'
      · subst hak'
        simp [mdel, mget, hak]
      · simp [mdel, mget, hak, hak', ih]

theorem mget_mset_ne {V : Type} (m : List (String × V)) (k k' : String) (v : V) (h : k' ≠ k) :
    mget (mset m k v) k' = mget m k' := by
  have hk : ¬ k = k' := fun e => h e.symm
  simp only [mset, mget, hk, if_false]
  exact mget_mdel_ne m k k' h

theorem mkeys_mdel {V : Type} (m : List (String × V)) (k : String) :
    mkeys (mdel m k) = (mkeys m).filter (fun a => !decide (a = k)) := by
  induction m with
  | nil => rfl
  | cons e m ih =>
    obtain ⟨a, b⟩ := e
    simp only [mkeys] at ih
    by_cases he : a = k <;> simp [mdel, mkeys, List.filter_cons, he, ih]

theorem mkeys_mset {V : Type} (m : List (String × V)) (k : String) (v : V) :
    mkeys (mset m k v) = k :: (mkeys m).filter (fun a => !decide (a = k)) := by
  have h := mkeys_mdel m k
  simp only [mkeys] at h
  simp [mkeys, mset, h]

theorem mem_mkeys_mset {V : Type} (m : List (String × V)) (k k' : String) (v : V) :
    k' ∈ mkeys (mset m k v) ↔ k' = k ∨ k' ∈ mkeys m := by
  rw [mkeys_mset]
  simp only [List.mem_cons, List.mem_filter, Bool.not_eq_true', decide_eq_false_iff_not]
  constructor
  · rintro (h | h)
    · exact Or.inl h
    · exact Or.inr h.1
  · rintro (h | h)
    · exact Or.inl h
    · by_cases e : k' = k
      · exact Or.inl e
      · exact Or.inr ⟨h, e⟩

theorem mget_eq_none_iff {V : Type} (m : List (String × V)) (k : String) :
    mget m k = none ↔ k ∉ mkeys m := by
  induction m with
  | nil => simp [mget, mkeys]
  | cons e m ih =>
    obtain ⟨a, b⟩ := e
    by_cases h : a = k
    · simp [mget, mkeys, h]
    · have h' : ¬ k = a := fun e => h e.symm
      simpa [mget, mkeys, h, h'] using ih

theorem mget_ne_none_of_mem {V : Type} (m : List (String × V)) (k : String)
    (h : k ∈ mkeys m) : ∃ v, mget m k = some v := by
  cases hg : mget m k with
  | none => exact absurd h ((mget_eq_none_iff m k).1 hg)
  | some v => exact ⟨v, rfl⟩

theorem nodup_mkeys_mset {V : Type} (m : List (String × V)) (k : String) (v : V)
    (h : (mkeys m).Nodup) : (mkeys (mset m k v)).Nodup := by
  rw [mkeys_mset, List.nodup_cons]
  refine ⟨?_, h.filter _⟩
  simp [List.mem_filter]

theorem mdel_of_not_mem {V : Type} (m : List (String × V)) (k : String)
    (h : k ∉ mkeys m) : mdel m k = m := by
  induction m with
  | nil => rfl
  | cons e m ih =>
    obtain ⟨a, b⟩ := e
    simp only [mkeys, List.map_cons, List.mem_cons, not_or] at h
    have ha : ¬ a = k := fun e => h.1 e.symm
    simp only [mdel, ha, if_false]
    rw [ih h.2]

theorem mem_mdel {V : Type} (m : List (String × V)) (k : String) (e : String × V)
    (h : e ∈ mdel m k) : e ∈ m := by
  induction m with
  | nil => simp [mdel] at h
  | cons x m ih =>
    obtain ⟨a, b⟩ := x
    simp only [mdel] at h
    split at h
    · exact List.mem_cons_of_mem _ (ih h)
    · rcases List.mem_cons.1 h with rfl | h
      · exact List.mem_cons_self _ _
      · exact List.mem_cons_of_mem _ (ih h)

theorem length_mset_of_not_mem {V : Type} (m : List (String × V)) (k : String) (v : V)
    (h : k ∉ mkeys m) : (mset m k v).length = m.length + 1 := by
  simp [mset, mdel_of_not_mem m k h]

theorem mkeys_songsAfter_indep (p q : Ptr) (ids : List String) (m m' : SongList)
    (h : mkeys m = mkeys m') : mkeys (songsAfter p ids m) = mkeys (songsAfter q ids m') := by
  induction ids generalizing m m' with
  | nil => simpa [songsAfter] using h
  | cons k ks ih =>
    simp only [songsAfter, List.foldl_cons]
    apply ih
    rw [mkeys_mset, mkeys_mset, h]

theorem mem_mkeys_songsAfter (p : Ptr) (ids : List String) (m : SongList) (k : String) :
    k ∈ mkeys (songsAfter p ids m) ↔ k ∈ ids ∨ k ∈ mkeys m := by
  induction ids generalizing m with
  | nil => simp [songsAfter]
  | cons a ks ih =>
    simp only [songsAfter, List.foldl_cons] at ih ⊢
    rw [ih, mem_mkeys_mset, List.mem_cons]
    tauto

theorem values_songsAfter (p : Ptr) (ids : List String) (m : SongList)
    (h : ∀ e ∈ m, e.2 = p) : ∀ e ∈ songsAfter p ids m, e.2 = p := by
  induction ids generalizing m with
  | nil => simpa [songsAfter] using h
  | cons a ks ih =>
    simp only [songsAfter, List.foldl_cons] at ih ⊢
    apply ih
    intro e he
    simp only [mset, List.mem_cons] at he
    rcases he with rfl | he
    · rfl
    · exact h e (mem_mdel m a e he)

theorem nodup_mkeys_songsAfter (p : Ptr) (ids : List String) (m : SongList)
    (h : (mkeys m).Nodup) : (mkeys (songsAfter p ids m)).Nodup := by
  induction ids generalizing m with
  | nil => simpa [songsAfter] using h
  | cons a ks ih =>
    simp only [songsAfter, List.foldl_cons] at ih ⊢
    exact ih _ (nodup_mkeys_mset m a p h)

theorem length_songsAfter (p : Ptr) (ids : List String) (m : SongList)
    (hn : ids.Nodup) (hd : ∀ k ∈ ids, k ∉ mkeys m) :
    (songsAfter p ids m).length = m.length + ids.length := by
  induction ids generalizing m with
  | nil => simp [songsAfter]
  | cons a ks ih =>
    simp only [songsAfter, List.foldl_cons] at ih ⊢
    rw [List.nodup_cons] at hn
    rw [ih (mset m a p) hn.2, length_mset_of_not_mem m a p (hd a (List.mem_cons_self _ _))]
    · simp only [List.length_cons]; omega
    · intro k hk hmem
      rw [mem_mkeys_mset] at hmem
      rcases hmem with rfl | hmem
      · exact hn.1 hk
      · exact hd k (List.mem_cons_of_mem _ hk) hmem

theorem mem_mkeys_filesAfter (w : World) (fs : List File) (m : List (String × File))
    (k : String) :
    k ∈ mkeys (filesAfter w fs m) ↔ (∃ f ∈ fs, decodes w f ∧ f.Id = k) ∨ k ∈ mkeys m := by
  induction fs generalizing m with
  | nil => simp [filesAfter]
  | cons f fs ih =>
    by_cases hf : decodes w f
    · have e : filesAfter w (f :: fs) m = filesAfter w fs (mset m f.Id f) := by
        simp [filesAfter, List.filter_cons, hf]
      rw [e, ih, mem_mkeys_mset]
      constructor
      · rintro (⟨g, hg, hd, rfl⟩ | rfl | h)
        · exact Or.inl ⟨g, List.mem_cons_of_mem _ hg, hd, rfl⟩
        · exact Or.inl ⟨f, List.mem_cons_self _ _, hf, rfl⟩
        · exact Or.inr h
      · rintro (⟨g, hg, hd, rfl⟩ | h)
        · rcases List.mem_cons.1 hg with rfl | hg
          · exact Or.inr (Or.inl rfl)
          · exact Or.inl ⟨g, hg, hd, rfl⟩
        · exact Or.inr (Or.inr h)
    · have e : filesAfter w (f :: fs) m = filesAfter w fs m := by
        simp [filesAfter, List.filter_cons, hf]
      rw [e, ih]
      constructor
      · rintro (⟨g, hg, hd, rfl⟩ | h)
        · exact Or.inl ⟨g, List.mem_cons_of_mem _ hg, hd, rfl⟩
        · exact Or.inr h
      · rintro (⟨g, hg, hd, rfl⟩ | h)
        · rcases List.mem_cons.1 hg with rfl | hg
          · exact absurd hd hf
          · exact Or.inl ⟨g, hg, hd, rfl⟩
        · exact Or.inr h


/-! ## The loops of Refresh -/

theorem songsAfter_append (p : Ptr) (a b : List String) (m : SongList) :
    songsAfter p (a ++ b) m = songsAfter p b (songsAfter p a m) := by
  simp [songsAfter, List.foldl_append]

theorem filesAfter_append (w : World) (a b : List File) (m : List (String × File)) :
    filesAfter w (a ++ b) m = filesAfter w b (filesAfter w a m) := by
  simp [filesAfter, List.filter_append, List.foldl_append]

theorem infoAfter_append (w : World) (a b : List File) (i0 : SongInfo) :
    infoAfter w (a ++ b) i0 = infoAfter w b (infoAfter w a i0) := by
  simp [infoAfter, List.foldl_append]

theorem rangeTracks_files (p : Ptr) (fid : String) (i : Nat) (ss : List Song) (st : Build) :
    (rangeTracks p fid i ss st).files = st.files := by
  induction ss generalizing i st with
  | nil => rfl
  | cons v vs ih =>
    simp only [rangeTracks, ih]
    unfold trackBody
    split <;> rfl

theorem rangeTracks_info (p : Ptr) (fid : String) (i : Nat) (ss : List Song) (st : Build) :
    (rangeTracks p fid i ss st).info = infoAfterTracks ss st.info := by
  induction ss generalizing i st with
  | nil => rfl
  | cons v vs ih =>
    simp only [rangeTracks, ih, infoAfterTracks, List.foldl_cons]
    unfold trackBody
    split <;> rfl

theorem rangeTracks_songs (p : Ptr) (fid : String) (i : Nat) (ss : List Song) (st : Build) :
    (rangeTracks p fid i ss st).songs = songsAfter p (trackIDs fid i ss) st.songs := by
  induction ss generalizing i st with
  | nil => rfl
  | cons v vs ih =>
    simp only [rangeTracks, ih, trackIDs]
    unfold trackBody
    cases h : v.Info.2 with
    | none => simp [songsAfter]
    | some e => simp

theorem fileBody_of_decodes (w : World) (p : Ptr) (st : Build) (f : File)
    (hd : decodes w f) :
    fileBody w p st f = rangeTracks p f.Id 0 (w.ByExtension f.FileExtension f.Id).1
      { st with err := (w.ByExtension f.FileExtension f.Id).2, files := mset st.files f.Id f } := by
  have hc : ¬ ((w.ByExtension f.FileExtension f.Id).2 ≠ none ∨
      (w.ByExtension f.FileExtension f.Id).1.length = 0) := by
    unfold decodes at hd; tauto
  unfold fileBody
  exact if_neg hc

theorem fileBody_of_not_decodes (w : World) (p : Ptr) (st : Build) (f : File)
    (hd : ¬ decodes w f) :
    fileBody w p st f = { st with err := (w.ByExtension f.FileExtension f.Id).2 } := by
  have hc : (w.ByExtension f.FileExtension f.Id).2 ≠ none ∨
      (w.ByExtension f.FileExtension f.Id).1.length = 0 := by
    unfold decodes at hd; tauto
  unfold fileBody
  exact if_pos hc

theorem fileBody_files (w : World) (p : Ptr) (st : Build) (f : File) :
    (fileBody w p st f).files = filesAfter w [f] st.files := by
  by_cases hd : decodes w f
  · rw [fileBody_of_decodes w p st f hd, rangeTracks_files]
    simp [filesAfter, hd]
  · rw [fileBody_of_not_decodes w p st f hd]
    simp [filesAfter, hd]

theorem fileBody_songs (w : World) (p : Ptr) (st : Build) (f : File) :
    (fileBody w p st f).songs = songsAfter p (fileIDs w f) st.songs := by
  by_cases hd : decodes w f
  · rw [fileBody_of_decodes w p st f hd, rangeTracks_songs]
    simp [fileIDs, hd]
  · rw [fileBody_of_not_decodes w p st f hd]
    simp [fileIDs, songsAfter, hd]

theorem fileBody_info (w : World) (p : Ptr) (st : Build) (f : File) :
    (fileBody w p st f).info = infoAfter w [f] st.info := by
  by_cases hd : decodes w f
  · rw [fileBody_of_decodes w p st f hd, rangeTracks_info]
    simp [infoAfter, hd]
  · rw [fileBody_of_not_decodes w p st f hd]
    simp [infoAfter, hd]

/-- The three catalog variables after the loop over the items of a page. -/
theorem foldl_fileBody (w : World) (p : Ptr) (fs : List File) (st : Build) :
    (fs.foldl (fileBody w p) st).files = filesAfter w fs st.files ∧
    (fs.foldl (fileBody w p) st).songs = songsAfter p (catalogIDs w fs) st.songs ∧
    (fs.foldl (fileBody w p) st).info = infoAfter w fs st.info := by
  induction fs generalizing st with
  | nil => simp [filesAfter, songsAfter, catalogIDs, infoAfter]
  | cons f fs ih =>
    have h := ih (fileBody w p st f)
    rw [fileBody_files, fileBody_songs, fileBody_info] at h
    have e1 : filesAfter w (f :: fs) st.files = filesAfter w fs (filesAfter w [f] st.files) :=
      filesAfter_append w [f] fs st.files
    have e2 : songsAfter p (catalogIDs w (f :: fs)) st.songs
        = songsAfter p (catalogIDs w fs) (songsAfter p (fileIDs w f) st.songs) := by
      have : catalogIDs w (f :: fs) = fileIDs w f ++ catalogIDs w fs := by
        simp [catalogIDs]
      rw [this, songsAfter_append]
    have e3 : infoAfter w (f :: fs) st.info = infoAfter w fs (infoAfter w [f] st.info) :=
      infoAfter_append w [f] fs st.info
    rw [List.foldl_cons, e1, e2, e3]
    exact h

/-- When the listing ends without error, the paging loop ends too, with the catalog
variables obtained from the listed files. -/
theorem pageLoop_ok (w : World) (p : Ptr) (fuel : Nat) (tok : String) (st : Build)
    (fs : List File) (h : listing w fuel tok = some (.ok fs)) :
    ∃ st', pageLoop w p fuel tok st = some (.ok st') ∧
      st'.files = filesAfter w fs st.files ∧
      st'.songs = songsAfter p (catalogIDs w fs) st.songs ∧
      st'.info = infoAfter w fs st.info := by
  induction fuel generalizing tok st fs with
  | zero => simp [listing] at h
  | succ n ih =>
    simp only [listing] at h
    simp only [pageLoop]
    cases hl : w.FilesList tok with
    | error e => simp [hl] at h
    | ok fl =>
      simp only [hl] at h ⊢
      have hf := foldl_fileBody w p fl.Items { st with err := none }
      by_cases ht : fl.NextPageToken = ""
      · simp only [ht, if_true, Option.some.injEq, Except.ok.injEq] at h ⊢
        subst h
        exact ⟨_, rfl, hf⟩
      · simp only [ht, if_false] at h ⊢
        cases hr : listing w n fl.NextPageToken with
        | none => simp [hr] at h
        | some r =>
          cases r with
          | error e => simp [hr] at h
          | ok rest =>
            simp only [hr, Option.some.injEq, Except.ok.injEq] at h
            subst h
            obtain ⟨st', hs, h1, h2, h3⟩ := ih fl.NextPageToken
              (fl.Items.foldl (fileBody w p) { st with err := none }) rest hr
            refine ⟨st', hs, ?_, ?_, ?_⟩
            · rw [h1, hf.1, filesAfter_append]
            · have hc : catalogIDs w (fl.Items ++ rest)
                  = catalogIDs w fl.Items ++ catalogIDs w rest := by
                simp [catalogIDs]
              rw [h2, hf.2.1, hc, songsAfter_append]
            · rw [h3, hf.2.2, infoAfter_append]

theorem pageLoop_error (w : World) (p : Ptr) (fuel : Nat) (tok : String) (st : Build)
    (e : Error) (h : listing w fuel tok = some (.error e)) :
    pageLoop w p fuel tok st = some (.error e) := by
  induction fuel generalizing tok st with
  | zero => simp [listing] at h
  | succ n ih =>
    simp only [listing] at h
    simp only [pageLoop]
    cases hl : w.FilesList tok with
    | error e' => simpa [hl] using h
    | ok fl =>
      simp only [hl] at h ⊢
      by_cases ht : fl.NextPageToken = ""
      · simp [ht] at h
      · simp only [ht, if_false] at h ⊢
        cases hr : listing w n fl.NextPageToken with
        | none => simp [hr] at h
        | some r =>
          cases r with
          | error e' =>
            simp only [hr, Option.some.injEq, Except.error.injEq] at h
            subst h
            exact ih _ _ hr
          | ok rest => simp [hr] at h

theorem pageLoop_none (w : World) (p : Ptr) (fuel : Nat) (tok : String) (st : Build)
    (h : listing w fuel tok = none) : pageLoop w p fuel tok st = none := by
  induction fuel generalizing tok st with
  | zero => rfl
  | succ n ih =>
    simp only [listing] at h
    simp only [pageLoop]
    cases hl : w.FilesList tok with
    | error e' => simp [hl] at h
    | ok fl =>
      simp only [hl] at h ⊢
      by_cases ht : fl.NextPageToken = ""
      · simp [ht] at h
      · simp only [ht, if_false] at h ⊢
        cases hr : listing w n fl.NextPageToken with
        | none => exact ih _ _ hr
        | some r =>
          cases r with
          | error e' => simp [hr] at h
          | ok rest => simp [hr] at h

/-- More fuel does not change a listing that has ended. -/
theorem listing_mono (w : World) (fuel k : Nat) (tok : String) (r : Except Error (List File))
    (h : listing w fuel tok = some r) : listing w (fuel + k) tok = some r := by
  induction fuel generalizing tok r with
  | zero => simp [listing] at h
  | succ n ih =>
    have e : n + 1 + k = (n + k) + 1 := by omega
    rw [e]
    simp only [listing] at h ⊢
    cases hl : w.FilesList tok with
    | error e' => simpa [hl] using h
    | ok fl =>
      simp only [hl] at h ⊢
      by_cases ht : fl.NextPageToken = ""
      · simpa [ht] using h
      · simp only [ht, if_false] at h ⊢
        cases hr : listing w n fl.NextPageToken with
        | none => simp [hr] at h
        | some r' =>
          rw [ih _ _ hr]
          simpa [hr] using h

/-! ## Refresh in terms of the listing -/

theorem Refresh_ok (w : World) (fuel : Nat) (d : Drive) (h : Heap) (fs : List File)
    (hs : w.getService = none) (hl : listing w fuel "" = some (.ok fs)) :
    d.Refresh w fuel h = some
      ⟨some (songsAfter h.length (catalogIDs w fs) []), none,
        ⟨filesAfter w fs [], songsAfter h.length (catalogIDs w fs) []⟩,
        h ++ [infoAfter w fs SongInfo.zero]⟩ := by
  obtain ⟨st', hp, h1, h2, h3⟩ :=
    pageLoop_ok w h.length fuel "" ⟨[], [], SongInfo.zero, none⟩ fs hl
  simp only [Drive.Refresh, hs, hp, h1, h2, h3]

theorem Refresh_listing_error (w : World) (fuel : Nat) (d : Drive) (h : Heap) (e : Error)
    (hs : w.getService = none) (hl : listing w fuel "" = some (.error e)) :
    d.Refresh w fuel h = some ⟨none, some e, d, h⟩ := by
  simp only [Drive.Refresh, hs, pageLoop_error w h.length fuel "" _ e hl]

theorem Refresh_none (w : World) (fuel : Nat) (d : Drive) (h : Heap)
    (hs : w.getService = none) (hl : listing w fuel "" = none) :
    d.Refresh w fuel h = none := by
  simp only [Drive.Refresh, hs, pageLoop_none w h.length fuel "" _ hl]


/-! ## TrackIDs of a listing -/

theorem makeID_inj (i j : Nat) (f g : String) (h : makeID i f = makeID j g) :
    i = j ∧ f = g := by
  have hs : splitDash (makeID i f).data = splitDash (makeID j g).data := by rw [h]
  simp only [makeID, splitDash_append _ _ (itoa_no_dash _), Option.some.injEq,
    Prod.mk.injEq] at hs
  obtain ⟨h1, h2⟩ := hs
  have hp : parseDigits 0 (itoa i) = parseDigits 0 (itoa j) := by rw [h1]
  rw [parseDigits_itoa, parseDigits_itoa] at hp
  exact ⟨Option.some.inj hp, String.ext h2⟩

theorem mem_trackIDs (fid : String) (i : Nat) (ss : List Song) (k : String) :
    k ∈ trackIDs fid i ss ↔
      ∃ j v, ss[j]? = some v ∧ v.Info.2 = none ∧ k = makeID (i + j) fid := by
  induction ss generalizing i with
  | nil => simp [trackIDs]
  | cons v vs ih =>
    have step : (∃ j u, (v :: vs)[j]? = some u ∧ u.Info.2 = none ∧ k = makeID (i + j) fid) ↔
        (v.Info.2 = none ∧ k = makeID i fid) ∨
          ∃ j u, vs[j]? = some u ∧ u.Info.2 = none ∧ k = makeID (i + 1 + j) fid := by
      constructor
      · rintro ⟨j, u, h1, h2, h3⟩
        cases j with
        | zero =>
          simp only [List.getElem?_cons_zero, Option.some.injEq] at h1
          subst h1
          exact Or.inl ⟨h2, by simpa using h3⟩
        | succ j =>
          simp only [List.getElem?_cons_succ] at h1
          exact Or.inr ⟨j, u, h1, h2, by rw [h3]; congr 1; omega⟩
      · rintro (⟨h2, h3⟩ | ⟨j, u, h1, h2, h3⟩)
        · exact ⟨0, v, by simp, h2, by simpa using h3⟩
        · exact ⟨j + 1, u, by simpa using h1, h2, by rw [h3]; congr 1; omega⟩
    rw [step]
    simp only [trackIDs]
    split
    · rename_i hv
      rw [List.mem_cons, ih]
      simp [hv]
    · rename_i hv
      rw [ih]
      simp [hv]

theorem nodup_trackIDs (fid : String) (i : Nat) (ss : List Song) :
    (trackIDs fid i ss).Nodup := by
  induction ss generalizing i with
  | nil => simp [trackIDs]
  | cons v vs ih =>
    simp only [trackIDs]
    split
    · rw [List.nodup_cons]
      refine ⟨?_, ih (i + 1)⟩
      rw [mem_trackIDs]
      rintro ⟨j, u, _, _, h3⟩
      have := (makeID_inj _ _ _ _ h3).1
      omega
    · exact ih (i + 1)

theorem length_trackIDs_le (fid : String) (i : Nat) (ss : List Song) :
    (trackIDs fid i ss).length ≤ ss.length := by
  induction ss generalizing i with
  | nil => simp [trackIDs]
  | cons v vs ih =>
    simp only [trackIDs]
    split
    · simpa using ih (i + 1)
    · have := ih (i + 1)
      simp only [List.length_cons]
      omega

theorem length_trackIDs_eq (fid : String) (i : Nat) (ss : List Song)
    (h : ∀ v ∈ ss, v.Info.2 = none) : (trackIDs fid i ss).length = ss.length := by
  induction ss generalizing i with
  | nil => simp [trackIDs]
  | cons v vs ih =>
    have hv : v.Info.2 = none := h v (List.mem_cons_self _ _)
    simp only [trackIDs, hv, if_true, List.length_cons]
    rw [ih (i + 1) (fun u hu => h u (List.mem_cons_of_mem _ hu))]

theorem mem_catalogIDs (w : World) (fs : List File) (k : String) :
    k ∈ catalogIDs w fs ↔
      ∃ f ∈ fs, decodes w f ∧ ∃ j v, (w.ByExtension f.FileExtension f.Id).1[j]? = some v ∧
        v.Info.2 = none ∧ k = makeID j f.Id := by
  simp only [catalogIDs, List.mem_flatMap, fileIDs]
  constructor
  · rintro ⟨f, hf, hk⟩
    by_cases hd : decodes w f
    · rw [if_pos hd, mem_trackIDs] at hk
      obtain ⟨j, v, h1, h2, h3⟩ := hk
      exact ⟨f, hf, hd, j, v, h1, h2, by simpa using h3⟩
    · rw [if_neg hd] at hk
      simp at hk
  · rintro ⟨f, hf, hd, j, v, h1, h2, h3⟩
    refine ⟨f, hf, ?_⟩
    rw [if_pos hd, mem_trackIDs]
    exact ⟨j, v, h1, h2, by simpa using h3⟩

theorem nodup_fileIDs (w : World) (f : File) : (fileIDs w f).Nodup := by
  unfold fileIDs
  split
  · exact nodup_trackIDs _ _ _
  · exact List.nodup_nil

theorem fileIDs_fileID (w : World) (f : File) (k : String) (h : k ∈ fileIDs w f) :
    ∃ j, k = makeID j f.Id := by
  unfold fileIDs at h
  split at h
  · rw [mem_trackIDs] at h
    obtain ⟨j, v, _, _, h3⟩ := h
    exact ⟨0 + j, h3⟩
  · simp at h

theorem nodup_catalogIDs (w : World) (fs : List File) (hd : (fs.map File.Id).Nodup) :
    (catalogIDs w fs).Nodup := by
  unfold catalogIDs
  rw [List.nodup_flatMap]
  refine ⟨fun f _ => nodup_fileIDs w f, ?_⟩
  rw [List.Nodup, List.pairwise_map] at hd
  refine hd.imp ?_
  intro f g hne
  show List.Disjoint (fileIDs w f) (fileIDs w g)
  intro k hf hg
  obtain ⟨i, hi⟩ := fileIDs_fileID w f k hf
  obtain ⟨j, hj⟩ := fileIDs_fileID w g k hg
  exact hne (makeID_inj i j f.Id g.Id (hi.symm.trans hj)).2

theorem length_catalogIDs_le (w : World) (fs : List File) :
    (catalogIDs w fs).length ≤ decodedTracks w fs := by
  induction fs with
  | nil => simp [catalogIDs, decodedTracks]
  | cons f fs ih =>
    have e : catalogIDs w (f :: fs) = fileIDs w f ++ catalogIDs w fs := by simp [catalogIDs]
    have e' : decodedTracks w (f :: fs) =
        (if decodes w f then (w.ByExtension f.FileExtension f.Id).1.length else 0)
          + decodedTracks w fs := by
      simp [decodedTracks]
    rw [e, e', List.length_append]
    have hf : (fileIDs w f).length ≤
        (if decodes w f then (w.ByExtension f.FileExtension f.Id).1.length else 0) := by
      unfold fileIDs
      split
      · exact length_trackIDs_le _ _ _
      · simp
    omega

theorem length_catalogIDs_eq (w : World) (fs : List File)
    (h : ∀ f ∈ fs, ∀ v ∈ (w.ByExtension f.FileExtension f.Id).1, v.Info.2 = none) :
    (catalogIDs w fs).length = decodedTracks w fs := by
  induction fs with
  | nil => simp [catalogIDs, decodedTracks]
  | cons f fs ih =>
    have e : catalogIDs w (f :: fs) = fileIDs w f ++ catalogIDs w fs := by simp [catalogIDs]
    have e' : decodedTracks w (f :: fs) =
        (if decodes w f then (w.ByExtension f.FileExtension f.Id).1.length else 0)
          + decodedTracks w fs := by
      simp [decodedTracks]
    rw [e, e', List.length_append, ih (fun g hg => h g (List.mem_cons_of_mem _ hg))]
    have hf : (fileIDs w f).length =
        (if decodes w f then (w.ByExtension f.FileExtension f.Id).1.length else 0) := by
      unfold fileIDs
      split
      · exact length_trackIDs_eq _ _ _ (h f (List.mem_cons_self _ _))
      · simp
    omega


/-! ## GetSong -/

theorem wrapInt_of_lt (n : Nat) (h : n < maxInt) : wrapInt ((n : Int) + 1) = (n : Int) + 1 := by
  unfold wrapInt
  unfold maxInt at h
  omega

theorem append_left_cancel_string (a b c : String) (h : a ++ b = a ++ c) : b = c := by
  have hd : (a ++ b).data = (a ++ c).data := by rw [h]
  rw [String.data_append, String.data_append] at hd
  exact String.ext (List.append_cancel_left hd)

/-- A parsed TrackID is the index numeral, the separator and the file identifier. -/
theorem ParseID_data (id path : String) (num : Nat) (h : ParseID id = .ok (path, num)) :
    ∃ a, id.data = a ++ '-' :: path.data := by
  unfold ParseID at h
  split at h
  · simp at h
  · rename_i a b hs
    split at h
    · simp at h
    · split at h
      · simp at h
      · split at h
        · simp only [Except.ok.injEq, Prod.mk.injEq] at h
          obtain ⟨rfl, _⟩ := h
          exact ⟨a, splitDash_eq _ _ _ hs⟩
        · simp at h

theorem ParseID_path_ne (id path : String) (num : Nat) (h : ParseID id = .ok (path, num)) :
    path ≠ id := by
  obtain ⟨a, ha⟩ := ParseID_data id path num h
  intro e
  rw [e] at ha
  have := congrArg List.length ha
  simp only [List.length_append, List.length_cons] at this
  omega

theorem GetSong_missingFile_inv (w : World) (d : Drive) (id : String) (e : Error)
    (h : d.GetSong w id = .missingFile e) :
    ∃ path num, ParseID id = .ok (path, num) ∧ mget d.Files path = none ∧
      e = "missing " ++ path := by
  unfold Drive.GetSong at h
  split at h
  · simp at h
  · rename_i path num hp
    refine ⟨path, num, hp, ?_⟩
    split at h
    · rename_i hm
      simp only [GetSongResult.missingFile.injEq] at h
      exact ⟨hm, h.symm⟩
    · simp only at h
      split at h
      · simp at h
      · split at h
        · simp at h
        · split at h <;> simp at h

theorem GetSong_missingTrack_inv (w : World) (d : Drive) (id : String) (e : Error)
    (h : d.GetSong w id = .missingTrack e) :
    ∃ path num f, ParseID id = .ok (path, num) ∧ mget d.Files path = some f ∧
      (w.ByExtension f.FileExtension path).2 = none ∧ e = "missing " ++ id := by
  unfold Drive.GetSong at h
  split at h
  · simp at h
  · rename_i path num hp
    split at h
    · simp at h
    · rename_i f hm
      simp only at h
      split at h
      · simp at h
      · rename_i hr
        split at h
        · simp only [GetSongResult.missingTrack.injEq] at h
          exact ⟨path, num, f, hp, hm, hr, h.symm⟩
        · split at h <;> simp at h

theorem GetSong_ne_missingFile (w : World) (d : Drive) (id path : String) (num : Nat)
    (hp : ParseID id = .ok (path, num)) (hm : path ∈ mkeys d.Files) (e : Error) :
    d.GetSong w id ≠ .missingFile e := by
  intro h
  obtain ⟨path', num', hp', hn, _⟩ := GetSong_missingFile_inv w d id e h
  rw [hp] at hp'
  simp only [Except.ok.injEq, Prod.mk.injEq] at hp'
  obtain ⟨rfl, _⟩ := hp'
  exact (mget_eq_none_iff d.Files path).1 hn hm

/-- What `GetSong` does on an ID that parses, for every index below `maxInt`. -/
theorem GetSong_of_parsed (w : World) (d : Drive) (id path : String) (num : Nat)
    (hp : ParseID id = .ok (path, num)) :
    (mget d.Files path = none → d.GetSong w id = .missingFile ("missing " ++ path)) ∧
    (∀ f, mget d.Files path = some f →
      (∀ e, (w.ByExtension f.FileExtension path).2 = some e → d.GetSong w id = .decodeError e) ∧
      ((w.ByExtension f.FileExtension path).2 = none → num < maxInt →
        ((w.ByExtension f.FileExtension path).1.length ≤ num →
          d.GetSong w id = .missingTrack ("missing " ++ id)) ∧
        (∀ s, (w.ByExtension f.FileExtension path).1[num]? = some s →
          d.GetSong w id = .song s))) := by
  refine ⟨fun hm => ?_, fun f hm => ⟨fun e he => ?_, fun he hn => ⟨fun hlen => ?_, fun s hs => ?_⟩⟩⟩
  · simp only [Drive.GetSong, hp, hm]
  · simp only [Drive.GetSong, hp, hm, he]
  · have hc : ((w.ByExtension f.FileExtension path).1.length : Int) < wrapInt ((num : Int) + 1) := by
      rw [wrapInt_of_lt num hn]; omega
    simp only [Drive.GetSong, hp, hm, he, hc, if_true]
  · have hlt : num < (w.ByExtension f.FileExtension path).1.length := by
      by_contra hge
      rw [List.getElem?_eq_none (by omega)] at hs
      simp at hs
    have hc : ¬ ((w.ByExtension f.FileExtension path).1.length : Int) < wrapInt ((num : Int) + 1) := by
      rw [wrapInt_of_lt num hn]; omega
    simp only [Drive.GetSong, hp, hm, he, hc, if_false, hs]

/-- At the index `maxInt` the bound test of line 97 never fires: whatever file is found
and however few tracks it decodes to, `GetSong` reaches `ss[num]` and panics. -/
theorem GetSong_at_maxInt (w : World) (d : Drive) (id path : String) (f : File)
    (hp : ParseID id = .ok (path, maxInt)) (hm : mget d.Files path = some f)
    (he : (w.ByExtension f.FileExtension path).2 = none)
    (hlen : (w.ByExtension f.FileExtension path).1.length ≤ maxInt) :
    d.GetSong w id = .panicIndex := by
  have hw : wrapInt ((maxInt : Int) + 1) = -9223372036854775808 := by decide
  have hc : ¬ ((w.ByExtension f.FileExtension path).1.length : Int)
      < wrapInt ((maxInt : Int) + 1) := by
    rw [hw]; omega
  have hn : (w.ByExtension f.FileExtension path).1[maxInt]? = none :=
    List.getElem?_eq_none hlen
  simp only [Drive.GetSong, hp, hm, he, hc, if_false, hn]

theorem GetSong_parseError (w : World) (d : Drive) (id : String) (e : Error)
    (hp : ParseID id = .error e) : d.GetSong w id = .parseError e := by
  simp only [Drive.GetSong, hp]


/-! ## The TrackID round trip -/

/-- C1: for every index `i` of a decoded track (a non-negative Go `int`) and every
non-empty file identifier `f`, parsing the TrackID `"<i>-<f>"` that `Refresh` builds
gives back exactly `(f, i)` and no error, whatever characters `f` holds (separators and
digits included). -/
theorem parseID_makeID_roundtrip (i : Nat) (f : String) (hi : i ≤ maxInt) (_hf : f ≠ "") :
    ParseID (makeID i f) = .ok (f, i) :=
  ParseID_makeID i f hi

theorem parseID_makeID_roundtrip_witness :
    (12 ≤ maxInt ∧ "a-7-b" ≠ "") ∧ makeID 12 "a-7-b" = "12-a-7-b" ∧
      ParseID "12-a-7-b" = .ok ("a-7-b", 12) :=
  ⟨⟨by decide, by decide⟩, by decide,
    parseID_makeID_roundtrip 12 "a-7-b" (by decide) (by decide)⟩

/-! ## Refresh: failures -/

/-- C2: when some page request of the listing fails (the first or a later one, after any
number of files were probed), `Refresh` returns that error and a nil track mapping, and
the file table, the track mapping and the metadata they point to are what they were before
the call.  The fuel only has to cover the pages requested up to the failure. -/
theorem refresh_listing_failure_keeps_catalog (w : World) (fuel : Nat) (d : Drive) (h : Heap)
    (e : Error) (hs : w.getService = none) (hl : listing w fuel "" = some (.error e)) :
    ∀ k, d.Refresh w (fuel + k) h = some ⟨none, some e, d, h⟩ :=
  fun k => Refresh_listing_error w (fuel + k) d h e hs (listing_mono w fuel k "" _ hl)

theorem refresh_listing_failure_keeps_catalog_witness :
    (worldBroken.getService = none ∧ listing worldBroken 2 "" = some (.error "transport error")) ∧
      ∀ k, driveA.Refresh worldBroken (2 + k) [infoY]
        = some ⟨none, some "transport error", driveA, [infoY]⟩ :=
  ⟨⟨rfl, rfl⟩,
    refresh_listing_failure_keeps_catalog worldBroken 2 driveA [infoY] "transport error" rfl rfl⟩

/-- C3: when every page request succeeds, `Refresh` returns no error, however many decodes
or metadata extractions fail.  The file table holds exactly the identifiers of the listed
files that decode to at least one track, and the track mapping holds exactly the TrackIDs
of the tracks of those files whose metadata extraction succeeds; so a file whose decode
fails or yields no track contributes no entry to either table. -/
theorem refresh_isolates_failures (w : World) (fuel : Nat) (d : Drive) (h : Heap)
    (fs : List File) (hs : w.getService = none) (hl : listing w fuel "" = some (.ok fs)) :
    ∃ out, d.Refresh w fuel h = some out ∧ out.err = none ∧ out.songs = some out.d.Songs ∧
      (∀ k, k ∈ mkeys out.d.Files ↔ ∃ f ∈ fs, decodes w f ∧ f.Id = k) ∧
      (∀ k, k ∈ mkeys out.d.Songs ↔
        ∃ f ∈ fs, decodes w f ∧ ∃ j v, (w.ByExtension f.FileExtension f.Id).1[j]? = some v ∧
          v.Info.2 = none ∧ k = makeID j f.Id) ∧
      (∀ f ∈ fs, (∀ g ∈ fs, g.Id = f.Id → ¬ decodes w g) →
        f.Id ∉ mkeys out.d.Files ∧ ∀ j, makeID j f.Id ∉ mkeys out.d.Songs) := by
  refine ⟨_, Refresh_ok w fuel d h fs hs hl, rfl, rfl, ?_, ?_, ?_⟩
  · intro k
    rw [mem_mkeys_filesAfter]
    simp [mkeys]
  · intro k
    rw [mem_mkeys_songsAfter, mem_catalogIDs]
    simp [mkeys]
  · intro f _ hall
    constructor
    · simp only [mem_mkeys_filesAfter]
      rintro (⟨g, hg, hd, he⟩ | hm)
      · exact hall g hg he hd
      · simp [mkeys] at hm
    · intro j
      simp only [mem_mkeys_songsAfter, mem_catalogIDs]
      rintro (⟨g, hg, hd, i, v, _, _, he⟩ | hm)
      · exact hall g hg (makeID_inj _ _ _ _ he).2.symm hd
      · simp [mkeys] at hm

theorem refresh_isolates_failures_witness :
    (worldAB.getService = none ∧ listing worldAB 1 "" = some (.ok [fileA, fileB])) ∧
    ∃ out, New.Refresh worldAB 1 [] = some out ∧ out.err = none ∧
      out.songs = some out.d.Songs ∧
      (∀ k, k ∈ mkeys out.d.Files ↔ ∃ f ∈ [fileA, fileB], decodes worldAB f ∧ f.Id = k) ∧
      (∀ k, k ∈ mkeys out.d.Songs ↔
        ∃ f ∈ [fileA, fileB], decodes worldAB f ∧
          ∃ j v, (worldAB.ByExtension f.FileExtension f.Id).1[j]? = some v ∧
            v.Info.2 = none ∧ k = makeID j f.Id) ∧
      (∀ f ∈ [fileA, fileB], (∀ g ∈ [fileA, fileB], g.Id = f.Id → ¬ decodes worldAB g) →
        f.Id ∉ mkeys out.d.Files ∧ ∀ j, makeID j f.Id ∉ mkeys out.d.Songs) :=
  ⟨⟨rfl, rfl⟩, refresh_isolates_failures worldAB 1 New [] [fileA, fileB] rfl rfl⟩

/-- The example of the catalog build: a listing of `fileA` (two tracks) and `fileB`
(decode error) gives exactly two tracks, both addressed to `fileA`, and no error. -/
theorem refresh_example_two_tracks :
    New.Refresh worldAB 1 [] =
      some ⟨some [("1-a", 0), ("0-a", 0)], none, driveA, [infoY]⟩ := by
  decide


/-! ## Info after Refresh -/

theorem mget_mem {V : Type} (m : List (String × V)) (k : String) (v : V)
    (h : mget m k = some v) : (k, v) ∈ m := by
  induction m with
  | nil => simp [mget] at h
  | cons e m ih =>
    obtain ⟨a, b⟩ := e
    simp only [mget] at h
    split at h
    · rename_i hk
      simp only [Option.some.injEq] at h
      subst hk; subst h
      exact List.mem_cons_self _ _
    · exact List.mem_cons_of_mem _ (ih h)

theorem getElem?_heap_top (h : Heap) (x : SongInfo) : (h ++ [x])[h.length]? = some x := by
  simp

/-- After a successful `Refresh`, `Info` returns for every TrackID of the catalog a pointer
to one and the same variable, whose content is the result of the last `v.Info()` call of
that `Refresh`. -/
theorem Refresh_InfoValue (w : World) (fuel : Nat) (d : Drive) (h : Heap) (fs : List File)
    (hs : w.getService = none) (hl : listing w fuel "" = some (.ok fs)) :
    ∃ out, d.Refresh w fuel h = some out ∧
      ∀ k ∈ catalogIDs w fs, out.d.Info k = .ok h.length ∧
        out.d.InfoValue out.heap k = some (infoAfter w fs SongInfo.zero) := by
  refine ⟨_, Refresh_ok w fuel d h fs hs hl, ?_⟩
  intro k hk
  have hmem : k ∈ mkeys (songsAfter h.length (catalogIDs w fs) []) :=
    (mem_mkeys_songsAfter _ _ _ _).2 (Or.inl hk)
  obtain ⟨p, hp⟩ := mget_ne_none_of_mem _ _ hmem
  have hpv : p = h.length :=
    values_songsAfter h.length (catalogIDs w fs) [] (by simp) _ (mget_mem _ _ _ hp)
  subst hpv
  have hi : Drive.Info ⟨filesAfter w fs [], songsAfter h.length (catalogIDs w fs) []⟩ k
      = .ok h.length := by
    simp only [Drive.Info, hp]
  refine ⟨hi, ?_⟩
  simp only [Drive.InfoValue, hi]
  exact getElem?_heap_top h _

/-- C4, at the failing input: `fileA` decodes to two tracks whose metadata are `infoX`
(track 0) and `infoY` (track 1), both extracted without error.  After the successful
`Refresh`, `Info` returns the same pointer for `"0-a"` and `"1-a"`, and the metadata
read through it for `"0-a"` is `infoY`, the metadata of track 1, not `infoX`. -/
theorem info_of_first_track_is_last_track_metadata :
    ∃ out, New.Refresh worldAB 1 [] = some out ∧ out.err = none ∧
      (worldAB.ByExtension fileA.FileExtension fileA.Id).1
        = [⟨"t0", (infoX, none)⟩, ⟨"t1", (infoY, none)⟩] ∧
      out.d.Info "0-a" = .ok 0 ∧ out.d.Info "1-a" = .ok 0 ∧
      out.d.InfoValue out.heap "0-a" = some infoY ∧ infoY ≠ infoX :=
  ⟨_, rfl, rfl, rfl, rfl, rfl, rfl, by decide⟩

/-! ## The size of the catalog -/

/-- C5 as stated fails: `worldPartial` lists one file, which decodes to two tracks
(`N = 1`, `M = 1`, `K = 2`), and the metadata of the second track cannot be extracted;
after the successful `Refresh`, `List()` returns a mapping with one entry. -/
theorem list_size_counterexample :
    ∃ out out', listing worldPartial 1 "" = some (.ok [fileA]) ∧
      decodes worldPartial fileA ∧ decodedTracks worldPartial [fileA] = 2 ∧
      New.Refresh worldPartial 1 [] = some out ∧ out.err = none ∧
      out.d.List worldPartial 1 out.heap = some out' ∧
      out'.songs = some [("0-a", 0)] ∧ out'.songs.map List.length ≠ some 2 :=
  ⟨_, _, rfl, by decide, rfl, rfl, rfl, rfl, rfl, by decide⟩

/-- C5 amended: after a successful `Refresh` over a listing with pairwise distinct file
identifiers, `List()` against the same account returns a mapping with exactly as many
entries as there are tracks, of the files that decode, whose metadata extraction
succeeded.  That number is at most the number `K` of decoded tracks, and equals `K`
when no extraction fails. -/
theorem list_size_after_refresh (w : World) (fuel : Nat) (d : Drive) (h : Heap)
    (fs : List File) (hs : w.getService = none) (hl : listing w fuel "" = some (.ok fs))
    (hd : (fs.map File.Id).Nodup) :
    ∃ out out' m, d.Refresh w fuel h = some out ∧ out.err = none ∧
      out.d.List w fuel out.heap = some out' ∧ out'.err = none ∧ out'.songs = some m ∧
      m.length = (catalogIDs w fs).length ∧ m.length ≤ decodedTracks w fs ∧
      ((∀ f ∈ fs, ∀ v ∈ (w.ByExtension f.FileExtension f.Id).1, v.Info.2 = none) →
        m.length = decodedTracks w fs) := by
  have hlen : ∀ p : Ptr, (songsAfter p (catalogIDs w fs) []).length = (catalogIDs w fs).length := by
    intro p
    rw [length_songsAfter p _ [] (nodup_catalogIDs w fs hd) (by simp [mkeys])]
    simp
  have hle := length_catalogIDs_le w fs
  by_cases hz : (songsAfter h.length (catalogIDs w fs) []).length = 0
  · refine ⟨_,
      ⟨some (songsAfter (h ++ [infoAfter w fs SongInfo.zero]).length (catalogIDs w fs) []), none,
        ⟨filesAfter w fs [],
          songsAfter (h ++ [infoAfter w fs SongInfo.zero]).length (catalogIDs w fs) []⟩,
        (h ++ [infoAfter w fs SongInfo.zero]) ++ [infoAfter w fs SongInfo.zero]⟩,
      songsAfter (h ++ [infoAfter w fs SongInfo.zero]).length (catalogIDs w fs) [],
      Refresh_ok w fuel d h fs hs hl, rfl, ?_, rfl, rfl, hlen _, ?_, ?_⟩
    · simp only [Drive.List, hz, if_true]
      exact Refresh_ok w fuel _ _ fs hs hl
    · rw [hlen]; exact hle
    · intro hall
      rw [hlen]; exact length_catalogIDs_eq w fs hall
  · refine ⟨_,
      ⟨some (songsAfter h.length (catalogIDs w fs) []), none,
        ⟨filesAfter w fs [], songsAfter h.length (catalogIDs w fs) []⟩,
        h ++ [infoAfter w fs SongInfo.zero]⟩,
      songsAfter h.length (catalogIDs w fs) [],
      Refresh_ok w fuel d h fs hs hl, rfl, ?_, rfl, rfl, hlen _, ?_, ?_⟩
    · simp only [Drive.List, hz, if_false]
    · rw [hlen]; exact hle
    · intro hall
      rw [hlen]; exact length_catalogIDs_eq w fs hall

theorem list_size_after_refresh_witness :
    (worldPartial.getService = none ∧ listing worldPartial 1 "" = some (.ok [fileA]) ∧
      ([fileA].map File.Id).Nodup) ∧
    ∃ out out' m, New.Refresh worldPartial 1 [] = some out ∧ out.err = none ∧
      out.d.List worldPartial 1 out.heap = some out' ∧ out'.err = none ∧ out'.songs = some m ∧
      m.length = (catalogIDs worldPartial [fileA]).length ∧
      m.length ≤ decodedTracks worldPartial [fileA] ∧
      ((∀ f ∈ [fileA], ∀ v ∈ (worldPartial.ByExtension f.FileExtension f.Id).1, v.Info.2 = none) →
        m.length = decodedTracks worldPartial [fileA]) :=
  ⟨⟨rfl, rfl, by decide⟩,
    list_size_after_refresh worldPartial 1 New [] [fileA] rfl rfl (by decide)⟩


/-! ## Catalog IDs and the file table -/

theorem ParseID_makeID_big (i : Nat) (f : String) (hi : maxInt < i) :
    ParseID (makeID i f) = .error "bad format" := by
  have hn : ¬ i ≤ maxInt := by omega
  simp only [ParseID, makeID, splitDash_append _ _ (itoa_no_dash i), itoa_ne_nil i,
    if_false, parseDigits_itoa, hn]

theorem mget_filesAfter_of_not_listed (w : World) (fs : List File) (m : List (String × File))
    (k : String) (h : k ∉ fs.map File.Id) : mget (filesAfter w fs m) k = mget m k := by
  induction fs generalizing m with
  | nil => simp [filesAfter]
  | cons g fs ih =>
    simp only [List.map_cons, List.mem_cons, not_or] at h
    have e : filesAfter w (g :: fs) m = filesAfter w fs (filesAfter w [g] m) :=
      filesAfter_append w [g] fs m
    rw [e, ih _ h.2]
    by_cases hd : decodes w g
    · simp only [filesAfter, hd, List.filter_cons, decide_True, if_true, List.filter_nil,
        List.foldl_cons, List.foldl_nil]
      exact mget_mset_ne m g.Id k g h.1
    · simp [filesAfter, hd, List.filter_cons]

theorem mget_filesAfter_of_nodup (w : World) (fs : List File) (m : List (String × File))
    (f : File) (hf : f ∈ fs) (hd : decodes w f) (hn : (fs.map File.Id).Nodup) :
    mget (filesAfter w fs m) f.Id = some f := by
  induction fs generalizing m with
  | nil => simp at hf
  | cons g fs ih =>
    have e : filesAfter w (g :: fs) m = filesAfter w fs (filesAfter w [g] m) :=
      filesAfter_append w [g] fs m
    rw [List.map_cons, List.nodup_cons] at hn
    rw [e]
    rcases List.mem_cons.1 hf with rfl | hf'
    · rw [mget_filesAfter_of_not_listed w fs _ f.Id hn.1]
      simp only [filesAfter, hd, List.filter_cons, decide_True, if_true, List.filter_nil,
        List.foldl_cons, List.foldl_nil]
      exact mget_mset_self m f.Id f
    · exact ih _ hf' hn.2

/-- C6 as stated fails: the listing of `worldDup` names the identifier `"a"` twice.  The
successful `Refresh` publishes the key `"1-a"`, written for the `mp3` entry, while the file
table holds the `flac` entry under `"a"`, which decodes to one track: the key is not
`"<i>-<f>"` with `i` below the track count of the file the table holds under `f`.
`GetSong` on it ends in the missing-track error, not in the missing-file error. -/
theorem catalog_id_beyond_recorded_file_counterexample :
    ∃ out, New.Refresh worldDup 1 [] = some out ∧ out.err = none ∧
      "1-a" ∈ mkeys out.d.Songs ∧ ParseID "1-a" = .ok ("a", 1) ∧
      mget out.d.Files "a" = some fileA2 ∧
      (worldDup.ByExtension fileA2.FileExtension fileA2.Id).1.length = 1 ∧
      (¬ ∃ i f g, "1-a" = makeID i f ∧ mget out.d.Files f = some g ∧
        i < (worldDup.ByExtension g.FileExtension g.Id).1.length) ∧
      out.d.GetSong worldDup "1-a" = .missingTrack "missing 1-a" := by
  refine ⟨⟨some [("0-a", 0), ("1-a", 0)], none,
    ⟨[("a", fileA2)], [("0-a", 0), ("1-a", 0)]⟩, [infoX]⟩, by decide, rfl, by decide, rfl, rfl,
    rfl, ?_, by decide⟩
  rintro ⟨i, f, g, hk, hm, hlt⟩
  have hk' : makeID 1 "a" = makeID i f := by
    rw [← hk]; decide
  obtain ⟨hi, hf⟩ := makeID_inj 1 i "a" f hk'
  subst hi; subst hf
  have hg : g = fileA2 := by
    have : mget [("a", fileA2)] "a" = some g := hm
    simp only [mget, if_true, Option.some.injEq] at this
    exact this.symm
  subst hg
  have : (worldDup.ByExtension fileA2.FileExtension fileA2.Id).1.length = 1 := rfl
  omega

/-- C6 amended: after every successful `Refresh`, every key of the track mapping is
`"<i>-<f>"` for a listed file that decoded in this `Refresh`, whose identifier `f` is a key
of the published file table and whose track count exceeds `i`; when the listed identifiers
are pairwise distinct, the file table holds that very file under `f`.  The key parses back
to `(f, i)`, and `GetSong` on it, with the catalog unchanged, never ends in the missing-file
error, whatever the remote account has become. -/
theorem catalog_ids_address_recorded_files (w : World) (fuel : Nat) (d : Drive) (h : Heap)
    (fs : List File) (hs : w.getService = none) (hl : listing w fuel "" = some (.ok fs)) :
    ∃ out, d.Refresh w fuel h = some out ∧ out.err = none ∧
      ∀ k ∈ mkeys out.d.Songs, ∃ i f, k = makeID i f.Id ∧ f ∈ fs ∧ decodes w f ∧
        f.Id ∈ mkeys out.d.Files ∧
        ((fs.map File.Id).Nodup → mget out.d.Files f.Id = some f) ∧
        i < (w.ByExtension f.FileExtension f.Id).1.length ∧
        (i ≤ maxInt → ParseID k = .ok (f.Id, i)) ∧
        ∀ w' e, out.d.GetSong w' k ≠ .missingFile e := by
  refine ⟨_, Refresh_ok w fuel d h fs hs hl, rfl, ?_⟩
  intro k hk
  rw [mem_mkeys_songsAfter, mem_catalogIDs] at hk
  rcases hk with ⟨f, hf, hd, j, v, hj, _, rfl⟩ | hk
  · have hkey : f.Id ∈ mkeys (filesAfter w fs []) :=
      (mem_mkeys_filesAfter w fs [] f.Id).2 (Or.inl ⟨f, hf, hd, rfl⟩)
    have hlt : j < (w.ByExtension f.FileExtension f.Id).1.length := by
      by_contra hge
      rw [List.getElem?_eq_none (by omega)] at hj
      simp at hj
    refine ⟨j, f, rfl, hf, hd, hkey, fun hn => mget_filesAfter_of_nodup w fs [] f hf hd hn,
      hlt, fun hi => ParseID_makeID j f.Id hi, ?_⟩
    intro w' e
    by_cases hi : j ≤ maxInt
    · exact GetSong_ne_missingFile w' _ _ f.Id j (ParseID_makeID j f.Id hi) hkey e
    · rw [GetSong_parseError w' _ _ _ (ParseID_makeID_big j f.Id (by omega))]
      simp
  · simp [mkeys] at hk

theorem catalog_ids_address_recorded_files_witness :
    (worldAB.getService = none ∧ listing worldAB 1 "" = some (.ok [fileA, fileB])) ∧
    ∃ out, New.Refresh worldAB 1 [] = some out ∧ out.err = none ∧
      ∀ k ∈ mkeys out.d.Songs, ∃ i f, k = makeID i f.Id ∧ f ∈ [fileA, fileB] ∧
        decodes worldAB f ∧ f.Id ∈ mkeys out.d.Files ∧
        (([fileA, fileB].map File.Id).Nodup → mget out.d.Files f.Id = some f) ∧
        i < (worldAB.ByExtension f.FileExtension f.Id).1.length ∧
        (i ≤ maxInt → ParseID k = .ok (f.Id, i)) ∧
        ∀ w' e, out.d.GetSong w' k ≠ .missingFile e :=
  ⟨⟨rfl, rfl⟩, catalog_ids_address_recorded_files worldAB 1 New [] [fileA, fileB] rfl rfl⟩

/-! ## List -/

/-- C7 as stated fails: a `Refresh` of a fresh instance against an account without files
completes with an empty catalog; a later `List()`, made when the account holds `fileA`,
performs `Refresh` again and changes the instance instead of returning the current
(empty) track mapping. -/
theorem list_after_empty_refresh_counterexample :
    New.Refresh worldEmpty 1 [] = some ⟨some [], none, New, [SongInfo.zero]⟩ ∧
    New.Songs = [] ∧
    New.List worldAB 1 [SongInfo.zero] = New.Refresh worldAB 1 [SongInfo.zero] ∧
    New.List worldAB 1 [SongInfo.zero] ≠ some ⟨some New.Songs, none, New, [SongInfo.zero]⟩ ∧
    New.List worldAB 1 [SongInfo.zero]
      = some ⟨some [("1-a", 1), ("0-a", 1)], none,
          ⟨[("a", fileA)], [("1-a", 1), ("0-a", 1)]⟩, [SongInfo.zero, infoY]⟩ := by
  decide

/-- C7 amended: `List()` performs `Refresh` exactly when the current track mapping is
empty.  On a freshly constructed instance it performs one `Refresh` and returns its
results.  After a successful `Refresh` that recorded at least one track, every later
`List()` returns the current mapping, performs no `Refresh` and leaves the instance as it
is; after a successful `Refresh` that recorded no track, a later `List()` performs
`Refresh` again. -/
theorem list_refreshes_iff_mapping_empty (w0 : World) (fuel0 : Nat) (d : Drive) (h : Heap)
    (fs : List File) (hs : w0.getService = none) (hl : listing w0 fuel0 "" = some (.ok fs)) :
    (∀ w fuel h', New.List w fuel h' = New.Refresh w fuel h') ∧
    ∃ out, d.Refresh w0 fuel0 h = some out ∧ out.err = none ∧
      (catalogIDs w0 fs ≠ [] →
        ∀ w fuel, out.d.List w fuel out.heap = some ⟨some out.d.Songs, none, out.d, out.heap⟩) ∧
      (catalogIDs w0 fs = [] →
        out.d.Songs = [] ∧ ∀ w fuel, out.d.List w fuel out.heap = out.d.Refresh w fuel out.heap) := by
  refine ⟨fun w fuel h' => rfl, _, Refresh_ok w0 fuel0 d h fs hs hl, rfl, ?_, ?_⟩
  · intro hne w fuel
    have hlen : ¬ (songsAfter h.length (catalogIDs w0 fs) []).length = 0 := by
      intro hz
      obtain ⟨k, ks, hk⟩ := List.exists_cons_of_ne_nil hne
      have hmem : k ∈ mkeys (songsAfter h.length (catalogIDs w0 fs) []) :=
        (mem_mkeys_songsAfter _ _ _ _).2 (Or.inl (by rw [hk]; exact List.mem_cons_self _ _))
      rw [List.length_eq_zero.1 hz] at hmem
      simp [mkeys] at hmem
    simp only [Drive.List, hlen, if_false]
  · intro he
    have hnil : songsAfter h.length (catalogIDs w0 fs) [] = [] := by
      rw [he]; rfl
    refine ⟨hnil, fun w fuel => ?_⟩
    simp only [Drive.List, hnil, List.length_nil, if_true]

theorem list_refreshes_iff_mapping_empty_witness :
    (worldAB.getService = none ∧ listing worldAB 1 "" = some (.ok [fileA, fileB])) ∧
    (∀ w fuel h', New.List w fuel h' = New.Refresh w fuel h') ∧
    ∃ out, New.Refresh worldAB 1 [] = some out ∧ out.err = none ∧
      (catalogIDs worldAB [fileA, fileB] ≠ [] →
        ∀ w fuel, out.d.List w fuel out.heap = some ⟨some out.d.Songs, none, out.d, out.heap⟩) ∧
      (catalogIDs worldAB [fileA, fileB] = [] →
        out.d.Songs = [] ∧ ∀ w fuel, out.d.List w fuel out.heap = out.d.Refresh w fuel out.heap) :=
  ⟨⟨rfl, rfl⟩, list_refreshes_iff_mapping_empty worldAB 1 New [] [fileA, fileB] rfl rfl⟩

/-! ## GetSong: results -/

/-- C8, at the failing input: the file table holds `"a"`, the fresh decode of that file
succeeds with two tracks, and the ID `"9223372036854775807-a"` parses to
`("a", 9223372036854775807)`.  The track count does not cover the index, yet the test
`len(ss) < num+1` is false because `num+1` wraps to the least `int`, and `ss[num]` is an
index out of range: `GetSong` panics instead of returning the missing-track error. -/
theorem getSong_index_out_of_range_at_maxInt :
    ParseID "9223372036854775807-a" = .ok ("a", maxInt) ∧
    mget driveA.Files "a" = some fileA ∧
    worldAB.ByExtension fileA.FileExtension "a"
      = ([⟨"t0", (infoX, none)⟩, ⟨"t1", (infoY, none)⟩], none) ∧
    wrapInt ((maxInt : Int) + 1) = -9223372036854775808 ∧
    driveA.GetSong worldAB "9223372036854775807-a" = .panicIndex ∧
    driveA.GetSong worldAB "9223372036854775807-a" ≠
      .missingTrack ("missing " ++ "9223372036854775807-a") :=
  ⟨rfl, rfl, rfl, by decide, by decide, by decide⟩

/-- C9 as stated fails: a call that fails because the file identifier `"2-a"` is unknown and
a call that fails because index 2 is out of range for file `"a"` return the same error
message. -/
theorem getSong_lookup_errors_coincide :
    New.GetSong worldAB "0-2-a" = .missingFile "missing 2-a" ∧
    driveA.GetSong worldAB "2-a" = .missingTrack "missing 2-a" ∧
    (New.GetSong worldAB "0-2-a").error? = (driveA.GetSong worldAB "2-a").error? := by
  decide

/-- C9 amended: the missing-file error of `GetSong` is `"missing "` followed by the parsed
file identifier, the missing-track error is `"missing "` followed by the whole ID.  The
two errors of two calls are equal exactly when the unknown file identifier of the one call
is the whole ID of the other; for two calls on the same ID they always differ. -/
theorem getSong_lookup_errors (w1 w2 : World) (d1 d2 : Drive) (id1 id2 : String)
    (e1 e2 : Error) (h1 : d1.GetSong w1 id1 = .missingFile e1)
    (h2 : d2.GetSong w2 id2 = .missingTrack e2) :
    ∃ path num, ParseID id1 = .ok (path, num) ∧ e1 = "missing " ++ path ∧
      e2 = "missing " ++ id2 ∧ (e1 = e2 ↔ path = id2) ∧ (id1 = id2 → e1 ≠ e2) := by
  obtain ⟨path, num, hp, _, he1⟩ := GetSong_missingFile_inv w1 d1 id1 e1 h1
  obtain ⟨_, _, _, _, _, _, he2⟩ := GetSong_missingTrack_inv w2 d2 id2 e2 h2
  have hiff : e1 = e2 ↔ path = id2 := by
    rw [he1, he2]
    exact ⟨fun h => append_left_cancel_string _ _ _ h, fun h => by rw [h]⟩
  refine ⟨path, num, hp, he1, he2, hiff, ?_⟩
  intro hid heq
  exact ParseID_path_ne id1 path num hp ((hiff.1 heq).trans hid.symm)

theorem getSong_lookup_errors_witness :
    (New.GetSong worldAB "0-2-a" = .missingFile "missing 2-a" ∧
      driveA.GetSong worldAB "2-a" = .missingTrack "missing 2-a") ∧
    ∃ path num, ParseID "0-2-a" = .ok (path, num) ∧ "missing 2-a" = "missing " ++ path ∧
      "missing 2-a" = "missing " ++ "2-a" ∧ ("missing 2-a" = "missing 2-a" ↔ path = "2-a") ∧
      ("0-2-a" = "2-a" → ("missing 2-a" : Error) ≠ "missing 2-a") :=
  ⟨⟨by decide, by decide⟩,
    getSong_lookup_errors worldAB worldAB New driveA "0-2-a" "2-a" "missing 2-a" "missing 2-a"
      (by decide) (by decide)⟩


/-! ## Refresh does not depend on the previous catalog -/

theorem view_published (files : List (String × File)) (h : Heap) (x : SongInfo)
    (ids : List String) :
    Drive.view ⟨files, songsAfter h.length ids []⟩ (h ++ [x])
      = (mkeys (songsAfter h.length ids [])).map (fun k => (k, some x)) := by
  have hv := values_songsAfter h.length ids [] (by simp)
  simp only [Drive.view, mkeys, List.map_map]
  apply List.map_congr_left
  intro e he
  simp only [Function.comp, hv e he]
  rw [getElem?_heap_top]

/-- The outcome of `Refresh` is decided by the account: either the call fails before or
during the listing, or the listing ends and the tables are built from it. -/
theorem Refresh_cases (w : World) (fuel : Nat) (d : Drive) (h : Heap) (o : Outcome)
    (hr : d.Refresh w fuel h = some o) :
    (∃ e, o = ⟨none, some e, d, h⟩ ∧
      (w.getService = some e ∨ (w.getService = none ∧ listing w fuel "" = some (.error e)))) ∨
    (∃ fs, w.getService = none ∧ listing w fuel "" = some (.ok fs) ∧
      o = ⟨some (songsAfter h.length (catalogIDs w fs) []), none,
        ⟨filesAfter w fs [], songsAfter h.length (catalogIDs w fs) []⟩,
        h ++ [infoAfter w fs SongInfo.zero]⟩) := by
  cases hs : w.getService with
  | some e =>
    left
    refine ⟨e, ?_, Or.inl rfl⟩
    simp only [Drive.Refresh, hs, Option.some.injEq] at hr
    exact hr.symm
  | none =>
    cases hl : listing w fuel "" with
    | none =>
      rw [Refresh_none w fuel d h hs hl] at hr
      simp at hr
    | some r =>
      cases r with
      | error e =>
        left
        rw [Refresh_listing_error w fuel d h e hs hl] at hr
        exact ⟨e, (Option.some.inj hr).symm, Or.inr ⟨rfl, rfl⟩⟩
      | ok fs =>
        right
        rw [Refresh_ok w fuel d h fs hs hl] at hr
        exact ⟨fs, rfl, rfl, (Option.some.inj hr).symm⟩

/-- C10: `Refresh` is a function of the account (listing and decode outcomes) only.  If it
returns from one instance state, it returns from any other with the same error value;
when it succeeds, both calls publish the same file table and the same track mapping, with
the same TrackIDs bound to the same metadata values, so nothing of either previous
catalog survives unless the listing reproduces it; when it fails, each instance is left
as it was. -/
theorem refresh_independent_of_prior_state (w : World) (fuel : Nat) (d1 d2 : Drive)
    (h1 h2 : Heap) (o1 : Outcome) (hr : d1.Refresh w fuel h1 = some o1) :
    ∃ o2, d2.Refresh w fuel h2 = some o2 ∧ o2.err = o1.err ∧
      (o1.err = none →
        o2.d.Files = o1.d.Files ∧ mkeys o2.d.Songs = mkeys o1.d.Songs ∧
        o2.d.view o2.heap = o1.d.view o1.heap ∧
        o1.songs = some o1.d.Songs ∧ o2.songs = some o2.d.Songs) ∧
      (o1.err ≠ none → o1.d = d1 ∧ o1.heap = h1 ∧ o2.d = d2 ∧ o2.heap = h2) := by
  rcases Refresh_cases w fuel d1 h1 o1 hr with ⟨e, rfl, hs | ⟨hs, hl⟩⟩ | ⟨fs, hs, hl, rfl⟩
  · refine ⟨⟨none, some e, d2, h2⟩, ?_, rfl, ?_, ?_⟩
    · simp only [Drive.Refresh, hs]
    · intro h; simp at h
    · intro _; exact ⟨rfl, rfl, rfl, rfl⟩
  · refine ⟨⟨none, some e, d2, h2⟩, Refresh_listing_error w fuel d2 h2 e hs hl, rfl, ?_, ?_⟩
    · intro h; simp at h
    · intro _; exact ⟨rfl, rfl, rfl, rfl⟩
  · refine ⟨_, Refresh_ok w fuel d2 h2 fs hs hl, rfl, ?_, ?_⟩
    · intro _
      have hk : mkeys (songsAfter h2.length (catalogIDs w fs) [])
          = mkeys (songsAfter h1.length (catalogIDs w fs) []) :=
        mkeys_songsAfter_indep _ _ _ [] [] rfl
      refine ⟨rfl, hk, ?_, rfl, rfl⟩
      rw [view_published, view_published, hk]
    · intro h; simp at h

theorem refresh_independent_of_prior_state_witness :
    New.Refresh worldAB 1 [] = some ⟨some driveA.Songs, none, driveA, [infoY]⟩ ∧
    ∃ o2, driveA.Refresh worldAB 1 [infoY] = some o2 ∧ o2.err = none ∧
      ((none : Option Error) = none →
        o2.d.Files = driveA.Files ∧ mkeys o2.d.Songs = mkeys driveA.Songs ∧
        o2.d.view o2.heap = driveA.view [infoY] ∧
        some driveA.Songs = some driveA.Songs ∧ o2.songs = some o2.d.Songs) ∧
      ((none : Option Error) ≠ none →
        driveA = New ∧ [infoY] = [] ∧ o2.d = driveA ∧ o2.heap = [infoY]) :=
  ⟨rfl, refresh_independent_of_prior_state worldAB 1 New driveA [] [infoY]
    ⟨some driveA.Songs, none, driveA, [infoY]⟩ rfl⟩

end Moggio
